import Mathlib

/-!
Verification of the Unicode-to-ASCII transliteration engine of
`src/utils/unicode_mapper.py`.  Lines of text are modelled as `List Char`
(Python strings are sequences of Unicode code points), the two mapping
tables as association lists in source order, and the fallible engine as
functions into `Except`.  The Unicode character database consulted by the
fallback rule (Python's `unicodedata.name` and NFKD normalization) is not
part of the repository; it is modelled by the `UnicodeData` structure, and
`udModel` instantiates it with the real database entries for the handful of
characters used in concrete examples.
-/

namespace UnicodeMapper

/-- ASCII test mirroring the regex `NON_ASCII_RE = [^\x00-\x7F]`:
a character is ASCII iff its code point is below 128. -/
def isAsciiChar (c : Char) : Bool := decide (c.toNat < 128)

/-- The `CHAR_MAP` dictionary of the source, in insertion order (Python
dicts iterate in insertion order).  Keys and values are code-point lists;
note that the key for `hatb` is the two code points `b` plus U+0304
COMBINING MACRON, and that the soft hyphen U+00AD maps to the empty
string. -/
def CHAR_MAP : List (List Char × List Char) := [
  (['θ'], ("theta").toList), (['Θ'], ("Theta").toList),
  (['β'], ("beta").toList),  (['Β'], ("Beta").toList), (['𝛽'], ("ibeta").toList),
  (['π'], ("pi").toList),    (['Π'], ("Pi").toList),
  (['η'], ("eta").toList),
  (['τ'], ("tau").toList),
  (['μ'], ("mu").toList),
  (['σ'], ("sigma").toList), (['Σ'], ("Sigma").toList),
  (['ϕ'], ("phi").toList),   (['φ'], ("phi").toList), (['Φ'], ("Phi").toList),
  (['λ'], ("lambda").toList), (['Λ'], ("Lambda").toList),
  (['√'], ("sqrt").toList),
  (['∞'], ("inf").toList),
  (['·'], ("*").toList),
  (['±'], ("+/-").toList),
  (['≤'], ("<=").toList), (['≥'], (">=").toList), (['≠'], ("!=").toList),
  (['→'], ("->").toList), (['←'], ("<-").toList), (['↔'], ("<->").toList),
  (['…'], ("...").toList), (['­'], []),
  (['×'], ("x").toList), (['÷'], ("/").toList), (['•'], ("*").toList),
  (['©'], ("copyright").toList), (['∛'], ("sqrt3").toList),
  (['⇔'], ("equiv").toList), (['≈'], ("simeq").toList),
  (['⟶'], ("rlim").toList), (['∈'], ("in").toList), (['≡'], ("eequiv").toList),
  (['ϵ'], ("iin").toList), (['∂'], ("partial").toList),
  (['b', '̄'], ("hatb").toList), (['∫'], ("int").toList)]

/-- The `SUBSCRIPT_MAP` dictionary of the source, in insertion order.
Values are modelled as code-point lists because Python's values are
one-character strings; note that the value for U+2094 is the non-ASCII
schwa U+0259. -/
def SUBSCRIPT_MAP : List (Char × List Char) := [
  ('₀', ['0']), ('₁', ['1']), ('₂', ['2']), ('₃', ['3']), ('₄', ['4']),
  ('₅', ['5']), ('₆', ['6']), ('₇', ['7']), ('₈', ['8']), ('₉', ['9']),
  ('ₐ', ['a']), ('ₑ', ['e']), ('ₒ', ['o']), ('ₓ', ['x']), ('ₔ', ['ə']),
  ('ₕ', ['h']), ('ₖ', ['k']), ('ₗ', ['l']), ('ₘ', ['m']), ('ₙ', ['n']),
  ('ₚ', ['p']), ('ₛ', ['s']), ('ₜ', ['t']), ('₍', ['(']), ('₎', [')']),
  ('ᵤ', ['u']), ('ᵗ', ['t']), ('ᵇ', ['b']), ('ᵉ', ['e'])]

/-- First-match association-list lookup, modelling Python dict lookup
(keys of each table are pairwise distinct, so first match is the match). -/
def assocLookup {α : Type} [DecidableEq α] (k : α) : List (α × List Char) → Option (List Char)
  | [] => none
  | p :: rest => if p.1 = k then some p.2 else assocLookup k rest

/-- Lookup of a single character among the keys of `CHAR_MAP`, modelling
the Python test `ch in CHAR_MAP` for a one-character string `ch`. -/
def charMapLookup (ch : Char) : Option (List Char) := assocLookup [ch] CHAR_MAP

/-- Whether a single character is, by itself, a key of `CHAR_MAP`. -/
def isSpecialKey (c : Char) : Bool := (charMapLookup c).isSome

/-- Membership in the regex character class `SUBSCRIPT_CHARS`, which the
source builds from the keys of `SUBSCRIPT_MAP`. -/
def isSubChar (c : Char) : Bool := (assocLookup c SUBSCRIPT_MAP).isSome

/-- The base-character class `[A-Za-z0-9]` of `SUBSCRIPT_SEQ_RE`. -/
def isWordBase (c : Char) : Bool :=
  (decide ('A' ≤ c) && decide (c ≤ 'Z')) ||
  (decide ('a' ≤ c) && decide (c ≤ 'z')) ||
  (decide ('0' ≤ c) && decide (c ≤ '9'))

/-- Fuelled worker for `replaceList`; the fuel (initially the length of the
text) makes the left-to-right, non-overlapping scan of Python's
`str.replace` structurally recursive.  When the pattern matches at the
current position the replacement is emitted and the scan resumes after the
matched occurrence. -/
def replaceGo (pat repl : List Char) : Nat → List Char → List Char
  | _, [] => []
  | 0, s => s
  | fuel + 1, c :: rest =>
    if pat ≠ [] && pat.isPrefixOf (c :: rest) then
      repl ++ replaceGo pat repl fuel ((c :: rest).drop pat.length)
    else
      c :: replaceGo pat repl fuel rest

/-- Python's `text.replace(pat, repl)`: replace every non-overlapping
occurrence of `pat` in `text`, scanning left to right. -/
def replaceList (pat repl text : List Char) : List Char :=
  replaceGo pat repl text.length text

/-- The source's `map_subscript_sequence`: map each character of the
matched run through `SUBSCRIPT_MAP` (absent keys contribute the empty
string), and emit `base_mapped`, or the base alone when the mapped suffix
is empty. -/
def map_subscript_sequence (base : Char) (seq : List Char) : List Char :=
  let mapped := (seq.map fun ch => (assocLookup ch SUBSCRIPT_MAP).getD []).flatten
  if mapped = [] then [base] else base :: '_' :: mapped

/-- Fuelled worker for `subSeqPass`, implementing
`SUBSCRIPT_SEQ_RE.sub(map_subscript_sequence, text)`: scan left to right;
at a `[A-Za-z0-9]` character immediately followed by a non-empty (greedy,
maximal) run of `SUBSCRIPT_MAP` keys, rewrite the whole match through
`map_subscript_sequence` and resume after it. -/
def subSeqGo : Nat → List Char → List Char
  | _, [] => []
  | 0, s => s
  | fuel + 1, c :: rest =>
    if isWordBase c && !(rest.takeWhile isSubChar).isEmpty then
      map_subscript_sequence c (rest.takeWhile isSubChar) ++
        subSeqGo fuel (rest.dropWhile isSubChar)
    else
      c :: subSeqGo fuel rest

/-- The subscript-sequence substitution pass of `transform_text`. -/
def subSeqPass (text : List Char) : List Char := subSeqGo text.length text

/-- The fragment of Python's `unicodedata` used by `char_replacement`:
the canonical character name (`none` models the `ValueError` raised for an
unnamed code point) and the NFKD normalization of a single character. -/
structure UnicodeData where
  charName : Char → Option (List Char)
  nfkd : Char → List Char

/-- The error raised by `char_replacement` (`RuntimeError` carrying the
offending character and its code point in the message). -/
structure CharError where
  ch : Char
deriving DecidableEq

/-- Code point reported in the `char_replacement` error message
(`U+{ord(ch):04X}`). -/
def CharError.codePoint (e : CharError) : Nat := e.ch.toNat

/-- Python's `token.isalpha()` for an ASCII token: non-empty and all
letters. -/
def pyIsAlpha (t : List Char) : Bool := !t.isEmpty && t.all Char.isAlpha

/-- Python's `token.isalnum()` for an ASCII token: non-empty and all
letters or digits. -/
def pyIsAlnum (t : List Char) : Bool := !t.isEmpty && t.all fun c => c.isAlpha || c.isDigit

/-- Worker for `pySplitTokens`, accumulating the current (reversed)
token. -/
def splitAux : List Char → List Char → List (List Char)
  | cur, [] => if cur.isEmpty then [] else [cur.reverse]
  | cur, c :: rest =>
    if c = ' ' then
      if cur.isEmpty then splitAux [] rest else cur.reverse :: splitAux [] rest
    else
      splitAux (c :: cur) rest

/-- Python's `s.split()` on space-separated text (Unicode character names
contain no other whitespace): split on runs of spaces, dropping empty
tokens. -/
def pySplitTokens (s : List Char) : List (List Char) := splitAux [] s

/-- Python's substring test `pat in s`. -/
def containsSub (pat : List Char) : List Char → Bool
  | [] => pat.isEmpty
  | c :: rest => pat.isPrefixOf (c :: rest) || containsSub pat rest

/-- The source's `for token in reversed(tokens): if token.isalpha(): return
token` search. -/
def lastAlphaToken (tokens : List (List Char)) : Option (List Char) :=
  tokens.reverse.find? pyIsAlpha

/-- The source's `char_replacement`: curated tables first, then the
Unicode-name patterns, then the ASCII part of the NFKD decomposition, else
an error.  A missing character name (Python `ValueError`) jumps straight to
the error: the decomposition fallback is inside the `try` block and is
skipped. -/
def char_replacement (ud : UnicodeData) (ch : Char) : Except CharError (List Char) :=
  match charMapLookup ch with
  | some v => .ok v
  | none =>
    match assocLookup ch SUBSCRIPT_MAP with
    | some v => .ok v
    | none =>
      match ud.charName ch with
      | none => .error ⟨ch⟩
      | some raw =>
        let lname := raw.map Char.toLower
        let fromGreek : Option (List Char) :=
          if containsSub (("greek").toList) lname && containsSub (("letter").toList) lname then
            lastAlphaToken (pySplitTokens lname)
          else none
        match fromGreek with
        | some t => .ok t
        | none =>
          let fromSubSup : Option (List Char) :=
            if containsSub (("subscript").toList) lname ||
               containsSub (("superscript").toList) lname then
              let toks := pySplitTokens (lname.map fun c => if c = '-' then ' ' else c)
              let filtered := (toks.filter pyIsAlnum).flatten
              if filtered = [] then none else some filtered
            else none
          match fromSubSup with
          | some r => .ok r
          | none =>
            let asciiEquiv := (ud.nfkd ch).filter isAsciiChar
            if asciiEquiv = [] then .error ⟨ch⟩ else .ok asciiEquiv

/-- The residual character-by-character sweep of `transform_text`: when the
text still contains a non-ASCII character, pass ASCII characters through
and resolve each remaining character via `char_replacement`, propagating
the first error. -/
def residualSweep (ud : UnicodeData) (text : List Char) : Except CharError (List Char) :=
  if text.any fun c => !isAsciiChar c then
    (text.mapM fun ch => if isAsciiChar ch then .ok [ch] else char_replacement ud ch).map
      List.flatten
  else
    .ok text

/-- The source's `transform_text`: comment short-circuit (the line with all
spaces removed starts with `//`), then `CHAR_MAP` substitutions in table
order, then the subscript-sequence pass, then the residual sweep. -/
def transform_text (ud : UnicodeData) (text : List Char) : Except CharError (List Char) :=
  if (("//").toList).isPrefixOf (text.filter fun c => c != ' ') then
    .ok text
  else
    residualSweep ud (subSeqPass (CHAR_MAP.foldl (fun acc kv => replaceList kv.1 kv.2 acc) text))

/-- The source's `TransformError`: the per-line wrapper raised by
`process_file`, carrying the 1-based line number, the raw line text and the
original `char_replacement` error. -/
structure TransformError where
  line_no : Nat
  line_text : List Char
  err : CharError

/-- Code point of the offending character surfaced by a `TransformError`
(via the embedded original error message). -/
def TransformError.codePoint (e : TransformError) : Nat := e.err.ch.toNat

/-- The line loop of `process_file`, numbering lines from `n` and stopping
at the first line whose transformation fails. -/
def processLines (ud : UnicodeData) : Nat → List (List Char) → Except TransformError (List (List Char))
  | _, [] => .ok []
  | n, l :: ls =>
    match transform_text ud l with
    | .error ce => .error ⟨n, l, ce⟩
    | .ok l2 => (processLines ud (n + 1) ls).map fun out => l2 :: out

/-- The source's `process_file` on a file already split into lines:
transform each line independently, numbering from 1. -/
def process_file (ud : UnicodeData) (lines : List (List Char)) :
    Except TransformError (List (List Char)) :=
  processLines ud 1 lines

/-- Modelled from the Unicode character database (Python's `unicodedata`
module, external to the repository): names and NFKD decompositions for the
concrete characters used in the examples below; other characters behave as
unnamed and decomposition-free, as the unassigned code point U+0378 does in
the real database. -/
def udModel : UnicodeData :=
  ⟨fun c =>
      if c = 'ω' then some (("GREEK SMALL LETTER OMEGA").toList)
      else if c = 'ℓ' then some (("SCRIPT SMALL L").toList)
      else if c = 'ⁱ' then some (("SUPERSCRIPT LATIN SMALL LETTER I").toList)
      else if c = 'ə' then some (("LATIN SMALL LETTER SCHWA").toList)
      else none,
    fun c =>
      if c = 'ℓ' then ['l']
      else if c = 'ⁱ' then ['i']
      else [c]⟩

/-! Helper lemmas about the embedded operations. -/

/-- A successful association-list lookup comes from an entry of the list. -/
theorem assocLookup_mem {α : Type} [DecidableEq α] {k : α} {v : List Char} :
    ∀ {m : List (α × List Char)}, assocLookup k m = some v → (k, v) ∈ m := by
  intro m
  induction m with
  | nil => intro h; simp [assocLookup] at h
  | cons p rest ih =>
    intro h
    simp only [assocLookup] at h
    by_cases hk : p.1 = k
    · rw [if_pos hk] at h
      obtain rfl : p.2 = v := Option.some.inj h
      have hp : p = (k, p.2) := by cases p; simp_all
      rw [← hp]
      exact List.mem_cons_self _ _
    · rw [if_neg hk] at h
      exact List.mem_cons_of_mem _ (ih h)

/-- Every key of SUBSCRIPT_MAP is a non-ASCII character. -/
theorem subMap_keys_nonAscii : ∀ kv ∈ SUBSCRIPT_MAP, isAsciiChar kv.1 = false := by decide

/-- Every value of SUBSCRIPT_MAP is a non-empty string. -/
theorem subMap_values_ne_nil : ∀ kv ∈ SUBSCRIPT_MAP, kv.2 ≠ [] := by decide

/-- Every value of CHAR_MAP consists of ASCII characters only. -/
theorem charMap_values_ascii : ∀ kv ∈ CHAR_MAP, ∀ c ∈ kv.2, isAsciiChar c = true := by decide

/-- Every key of CHAR_MAP contains at least one non-ASCII character. -/
theorem charMap_keys_have_nonAscii : ∀ kv ∈ CHAR_MAP, ∃ c ∈ kv.1, isAsciiChar c = false := by
  decide

/-- Characters of the subscript class are non-ASCII. -/
theorem isSubChar_not_ascii {c : Char} (h : isSubChar c = true) : isAsciiChar c = false := by
  unfold isSubChar at h
  obtain ⟨v, hv⟩ := Option.isSome_iff_exists.mp h
  exact subMap_keys_nonAscii (c, v) (assocLookup_mem hv)

/-- ASCII characters are outside the subscript class. -/
theorem ascii_not_subChar {c : Char} (h : isAsciiChar c = true) : isSubChar c = false := by
  cases hs : isSubChar c
  · rfl
  · rw [isSubChar_not_ascii hs] at h
    exact absurd h (by simp)

/-- Members of a matching prefix are members of the list. -/
theorem isPrefixOf_mem : ∀ {pat s : List Char}, pat.isPrefixOf s = true →
    ∀ {c : Char}, c ∈ pat → c ∈ s := by
  intro pat
  induction pat with
  | nil => intro s _ c hc; simp at hc
  | cons a as ih =>
    intro s hp c hc
    cases s with
    | nil => simp [List.isPrefixOf] at hp
    | cons b bs =>
      simp only [List.isPrefixOf, Bool.and_eq_true, beq_iff_eq] at hp
      obtain ⟨rfl, hp2⟩ := hp
      rcases List.mem_cons.mp hc with rfl | hc2
      · exact List.mem_cons_self _ _
      · exact List.mem_cons_of_mem _ (ih hp2 hc2)

/-- Dropping a prefix while a predicate holds never lengthens a list. -/
theorem dropWhile_len_le (p : Char → Bool) : ∀ l : List Char,
    (l.dropWhile p).length ≤ l.length := by
  intro l
  induction l with
  | nil => simp [List.dropWhile]
  | cons c rest ih =>
    rw [List.dropWhile_cons]
    by_cases h : p c = true
    · rw [if_pos h]
      exact le_trans ih (Nat.le_succ _)
    · rw [if_neg h]

/-- Characters of a replacement result come from the text or the
replacement string. -/
theorem mem_replaceGo {pat repl : List Char} :
    ∀ (fuel : Nat) (s : List Char) {c : Char},
    c ∈ replaceGo pat repl fuel s → c ∈ s ∨ c ∈ repl := by
  intro fuel
  induction fuel with
  | zero =>
    intro s c h
    cases s with
    | nil => simp [replaceGo] at h
    | cons a rest => simp only [replaceGo] at h; exact Or.inl h
  | succ fuel ih =>
    intro s c h
    cases s with
    | nil => simp [replaceGo] at h
    | cons a rest =>
      simp only [replaceGo] at h
      by_cases hc : (decide (pat ≠ []) && pat.isPrefixOf (a :: rest)) = true
      · rw [if_pos hc] at h
        rcases List.mem_append.mp h with h1 | h2
        · exact Or.inr h1
        · rcases ih _ h2 with h3 | h4
          · exact Or.inl (List.drop_subset _ _ h3)
          · exact Or.inr h4
      · rw [if_neg hc] at h
        rcases List.mem_cons.mp h with rfl | h2
        · exact Or.inl (List.mem_cons_self _ _)
        · rcases ih _ h2 with h3 | h4
          · exact Or.inl (List.mem_cons_of_mem _ h3)
          · exact Or.inr h4

/-- A pattern containing a non-ASCII character never matches inside
all-ASCII text, so the replacement is the identity there. -/
theorem replaceGo_ascii_noop {pat repl : List Char} (x : Char) (hx : x ∈ pat)
    (hxa : isAsciiChar x = false) :
    ∀ (fuel : Nat) (s : List Char), (∀ c ∈ s, isAsciiChar c = true) →
    replaceGo pat repl fuel s = s := by
  intro fuel
  induction fuel with
  | zero => intro s _; cases s <;> simp [replaceGo]
  | succ fuel ih =>
    intro s hs
    cases s with
    | nil => simp [replaceGo]
    | cons a rest =>
      have hnp : pat.isPrefixOf (a :: rest) = false := by
        cases hp : pat.isPrefixOf (a :: rest)
        · rfl
        · have := hs x (isPrefixOf_mem hp hx)
          rw [this] at hxa
          exact absurd hxa (by simp)
      simp only [replaceGo, hnp, Bool.and_false, Bool.false_eq_true, if_false]
      exact congrArg (a :: ·) (ih rest fun c hc => hs c (List.mem_cons_of_mem _ hc))

/-- Replacing all occurrences of the single character `k` by a string not
containing `k` removes `k` from the text. -/
theorem replaceGo_single_not_mem {k : Char} {repl : List Char} (hk : k ∉ repl) :
    ∀ (s : List Char) (fuel : Nat), s.length ≤ fuel → k ∉ replaceGo [k] repl fuel s := by
  intro s
  induction s with
  | nil => intro fuel _; cases fuel <;> simp [replaceGo]
  | cons a rest ih =>
    intro fuel hf
    cases fuel with
    | zero => simp at hf
    | succ fuel =>
      have hfr : rest.length ≤ fuel := by simp at hf; omega
      simp only [replaceGo]
      by_cases hka : ([k].isPrefixOf (a :: rest)) = true
      · have hpfx : (decide (([k] : List Char) ≠ []) && [k].isPrefixOf (a :: rest)) = true := by
          simp [hka]
        rw [if_pos hpfx]
        intro hmem
        rcases List.mem_append.mp hmem with h1 | h2
        · exact hk h1
        · have hdrop : (a :: rest).drop ([k] : List Char).length = rest := by simp
          rw [hdrop] at h2
          exact ih fuel hfr h2
      · have hne : k ≠ a := by
          intro h
          apply hka
          subst h
          simp [List.isPrefixOf]
        have hka2 : [k].isPrefixOf (a :: rest) = false := by
          cases h : [k].isPrefixOf (a :: rest)
          · rfl
          · exact absurd h hka
        have hpfx : (decide (([k] : List Char) ≠ []) && [k].isPrefixOf (a :: rest)) = false := by
          rw [hka2, Bool.and_false]
        rw [hpfx, if_neg (by simp)]
        intro hmem
        rcases List.mem_cons.mp hmem with heq | h2
        · exact hne heq
        · exact ih fuel hfr h2

/-- When no character of the text is in the subscript class, the
subscript-sequence pass is the identity. -/
theorem subSeqGo_no_sub : ∀ (fuel : Nat) (s : List Char),
    (∀ c ∈ s, isSubChar c = false) → subSeqGo fuel s = s := by
  intro fuel
  induction fuel with
  | zero => intro s _; cases s <;> simp [subSeqGo]
  | succ fuel ih =>
    intro s hs
    cases s with
    | nil => simp [subSeqGo]
    | cons a rest =>
      have htw : rest.takeWhile isSubChar = [] := by
        cases rest with
        | nil => simp
        | cons b bs =>
          rw [List.takeWhile_cons, if_neg]
          rw [hs b (List.mem_cons_of_mem _ (List.mem_cons_self _ _))]
          simp
      simp only [subSeqGo, htw, List.isEmpty_nil, Bool.not_true, Bool.and_false,
        Bool.false_eq_true, if_false]
      exact congrArg (a :: ·) (ih rest fun c hc => hs c (List.mem_cons_of_mem _ hc))

/-- The fuelled subscript scan does not depend on the fuel, provided the
fuel covers the length of the text. -/
theorem subSeqGo_fuel : ∀ (f1 : Nat) (s : List Char) (f2 : Nat),
    s.length ≤ f1 → s.length ≤ f2 → subSeqGo f1 s = subSeqGo f2 s := by
  intro f1
  induction f1 with
  | zero =>
    intro s f2 h1 _
    have hs : s = [] := List.length_eq_zero.mp (Nat.le_zero.mp h1)
    subst hs
    cases f2 <;> simp [subSeqGo]
  | succ f1 ih =>
    intro s f2 h1 h2
    cases s with
    | nil => cases f2 <;> simp [subSeqGo]
    | cons a rest =>
      cases f2 with
      | zero => simp at h2
      | succ f2 =>
        have hr1 : rest.length ≤ f1 := by simp at h1; omega
        have hr2 : rest.length ≤ f2 := by simp at h2; omega
        simp only [subSeqGo]
        by_cases hc : (isWordBase a && !(rest.takeWhile isSubChar).isEmpty) = true
        · rw [if_pos hc, if_pos hc]
          congr 1
          exact ih _ f2 (le_trans (dropWhile_len_le _ rest) hr1)
            (le_trans (dropWhile_len_le _ rest) hr2)
        · rw [if_neg hc, if_neg hc]
          exact congrArg (a :: ·) (ih rest f2 hr1 hr2)

/-- Taking and dropping while a predicate holds, across a run followed by a
stopper. -/
theorem takeWhile_append_run {p : Char → Bool} :
    ∀ (rs s : List Char), (∀ c ∈ rs, p c = true) →
    (∀ x, s.head? = some x → p x = false) →
    (rs ++ s).takeWhile p = rs ∧ (rs ++ s).dropWhile p = s := by
  intro rs
  induction rs with
  | nil =>
    intro s _ hs
    cases s with
    | nil => simp
    | cons x t =>
      constructor
      · rw [List.nil_append, List.takeWhile_cons, if_neg]
        rw [hs x rfl]
        simp
      · rw [List.nil_append, List.dropWhile_cons, if_neg]
        rw [hs x rfl]
        simp
  | cons r rt ih =>
    intro s hall hs
    have hr : p r = true := hall r (List.mem_cons_self _ _)
    obtain ⟨h1, h2⟩ := ih s (fun c hc => hall c (List.mem_cons_of_mem _ hc)) hs
    constructor
    · rw [List.cons_append, List.takeWhile_cons, if_pos (by rw [hr])]
      rw [h1]
    · rw [List.cons_append, List.dropWhile_cons, if_pos (by rw [hr])]
      exact h2

/-- A non-empty run of SUBSCRIPT_MAP keys always maps to a non-empty
suffix. -/
theorem run_mapped_ne_nil : ∀ (rs : List Char), rs ≠ [] →
    (∀ c ∈ rs, isSubChar c = true) →
    (rs.map fun ch => (assocLookup ch SUBSCRIPT_MAP).getD []).flatten ≠ [] := by
  intro rs hne hall
  cases rs with
  | nil => exact absurd rfl hne
  | cons r rt =>
    have hr := hall r (List.mem_cons_self _ _)
    obtain ⟨v, hv⟩ := Option.isSome_iff_exists.mp hr
    have hvne : v ≠ [] := subMap_values_ne_nil (r, v) (assocLookup_mem hv)
    simp only [List.map_cons, List.flatten_cons, hv, Option.getD_some]
    intro hcontra
    exact hvne (List.append_eq_nil.mp hcontra).1

/-- The CHAR_MAP substitution loop is the identity on all-ASCII text. -/
theorem foldl_replace_noop : ∀ (maps : List (List Char × List Char)),
    (∀ kv ∈ maps, ∃ c ∈ kv.1, isAsciiChar c = false) →
    ∀ (text : List Char), (∀ c ∈ text, isAsciiChar c = true) →
    maps.foldl (fun acc kv => replaceList kv.1 kv.2 acc) text = text := by
  intro maps
  induction maps with
  | nil => intro _ text _; rfl
  | cons kv tl ih =>
    intro h text ht
    obtain ⟨x, hx, hxa⟩ := h kv (List.mem_cons_self _ _)
    have step : replaceList kv.1 kv.2 text = text := replaceGo_ascii_noop x hx hxa _ text ht
    simp only [List.foldl_cons, step]
    exact ih (fun kv2 h2 => h kv2 (List.mem_cons_of_mem _ h2)) text ht

/-- When every non-ASCII character of the text is a single-character key of
the substitution table and all table values are ASCII, the substitution
loop produces all-ASCII text. -/
theorem foldl_replace_ascii : ∀ (maps : List (List Char × List Char)),
    (∀ kv ∈ maps, ∀ c ∈ kv.2, isAsciiChar c = true) →
    ∀ (text : List Char), (∀ c ∈ text, isAsciiChar c = true ∨ ∃ v, ([c], v) ∈ maps) →
    ∀ c ∈ maps.foldl (fun acc kv => replaceList kv.1 kv.2 acc) text, isAsciiChar c = true := by
  intro maps
  induction maps with
  | nil =>
    intro _ text ht c hc
    rcases ht c hc with h | ⟨v, hv⟩
    · exact h
    · simp at hv
  | cons kv tl ih =>
    intro hv text ht
    simp only [List.foldl_cons]
    apply ih (fun kv2 h2 => hv kv2 (List.mem_cons_of_mem _ h2))
    intro c hc
    rcases mem_replaceGo _ _ hc with hct | hcr
    · rcases ht c hct with h | ⟨w, hw⟩
      · exact Or.inl h
      · rcases List.mem_cons.mp hw with heq | htl
        · by_cases hca : isAsciiChar c = true
          · exact Or.inl hca
          · exfalso
            have hkv1 : kv.1 = [c] := by rw [← heq]
            have hnotin : c ∉ kv.2 := by
              intro hcin
              exact hca (hv kv (List.mem_cons_self _ _) c hcin)
            have habs : c ∉ replaceList kv.1 kv.2 text := by
              rw [hkv1]
              exact replaceGo_single_not_mem hnotin text _ le_rfl
            exact habs hc
        · exact Or.inr ⟨w, htl⟩
    · exact Or.inl (hv kv (List.mem_cons_self _ _) c hcr)

/-- The residual sweep leaves all-ASCII text untouched and succeeds. -/
theorem residualSweep_ascii (ud : UnicodeData) (s : List Char)
    (h : ∀ c ∈ s, isAsciiChar c = true) : residualSweep ud s = .ok s := by
  unfold residualSweep
  rw [if_neg]
  intro hany
  simp only [List.any_eq_true, Bool.not_eq_true'] at hany
  obtain ⟨c, hc, hca⟩ := hany
  rw [h c hc] at hca
  exact absurd hca (by simp)

/-- The subscript-sequence pass is the identity on all-ASCII text. -/
theorem subSeqPass_ascii (s : List Char) (h : ∀ c ∈ s, isAsciiChar c = true) :
    subSeqPass s = s :=
  subSeqGo_no_sub _ s fun c hc => ascii_not_subChar (h c hc)

/-- The line loop surfaces the error of the first failing line, numbered
from the given starting index, together with that line's raw text. -/
theorem processLines_first_error (ud : UnicodeData) (bad : List Char)
    (rest : List (List Char)) (ce : CharError)
    (hbad : transform_text ud bad = .error ce) :
    ∀ (pre : List (List Char)) (n : Nat),
    (∀ l ∈ pre, ∃ o, transform_text ud l = .ok o) →
    processLines ud n (pre ++ bad :: rest) = .error ⟨n + pre.length, bad, ce⟩ := by
  intro pre
  induction pre with
  | nil =>
    intro n _
    simp only [List.nil_append, processLines, hbad, List.length_nil, Nat.add_zero]
  | cons l pre ih =>
    intro n hok
    obtain ⟨o, ho⟩ := hok l (List.mem_cons_self _ _)
    simp only [List.cons_append, processLines, ho, List.append_eq]
    rw [ih (n + 1) (fun l2 h2 => hok l2 (List.mem_cons_of_mem _ h2))]
    have harith : n + (l :: pre).length = n + 1 + pre.length := by
      simp only [List.length_cons]
      omega
    rw [harith]
    rfl

/-! Claim theorems. -/

/-- C1: an ASCII letter-or-digit base immediately followed by a non-empty
run of SUBSCRIPT_MAP keys (and by nothing that extends the run) is
rewritten by the subscript pass of the transliteration as the base, an
underscore, and the concatenation of the per-character SUBSCRIPT_MAP
values, with the rest of the line processed independently. -/
theorem c1_subscript_run_rewrite (b : Char) (rs s : List Char)
    (hb : isWordBase b = true) (hne : rs ≠ [])
    (hall : ∀ c ∈ rs, isSubChar c = true)
    (hs : ∀ x, s.head? = some x → isSubChar x = false) :
    subSeqPass (b :: (rs ++ s)) =
      b :: '_' :: ((rs.map fun ch => (assocLookup ch SUBSCRIPT_MAP).getD []).flatten
        ++ subSeqPass s) := by
  obtain ⟨htake, hdrop⟩ := takeWhile_append_run rs s hall hs
  have hmap := run_mapped_ne_nil rs hne hall
  have hcond : (isWordBase b && !rs.isEmpty) = true := by
    rw [hb, Bool.true_and]
    cases rs with
    | nil => exact absurd rfl hne
    | cons r rt => simp
  show subSeqGo ((rs ++ s).length + 1) (b :: (rs ++ s)) = _
  simp only [subSeqGo]
  rw [htake, hdrop, if_pos hcond]
  rw [subSeqGo_fuel ((rs ++ s).length) s s.length (by rw [List.length_append]; omega) le_rfl]
  show map_subscript_sequence b rs ++ subSeqPass s = _
  simp only [map_subscript_sequence]
  rw [if_neg hmap]
  simp only [List.cons_append]

/-- Witness for C1 at base `b` with subscript run `ₘₐₓ`, giving `b_max`. -/
theorem c1_witness :
    isWordBase 'b' = true ∧ (("ₘₐₓ").toList ≠ ([] : List Char)) ∧
    subSeqPass ('b' :: (("ₘₐₓ").toList ++ [])) =
      'b' :: '_' :: (((("ₘₐₓ").toList.map
        fun ch => (assocLookup ch SUBSCRIPT_MAP).getD []).flatten) ++ subSeqPass []) :=
  ⟨by decide, by decide,
    c1_subscript_run_rewrite 'b' (("ₘₐₓ").toList) [] (by decide) (by decide) (by decide)
      (by intro x hx; exact absurd hx (by simp))⟩

/-- C2: the line `sₗ = θ·β` transliterates end-to-end to
`s_l = theta*beta`: the special-character substitutions of θ, ·, β happen
before the subscript collapse of sₗ. -/
theorem c2_end_to_end :
    transform_text udModel (("sₗ = θ·β").toList) = .ok (("s_l = theta*beta").toList) := by
  rfl

/-- C3 counterexample: a line that starts with `//` once all whitespace is
removed, but whose whitespace includes a tab, is not short-circuited (the
code strips only spaces) and comes back changed. -/
theorem c3_counterexample :
    (("//").toList).isPrefixOf
      ((("\t// ℓ is a ratio").toList).filter fun c => !c.isWhitespace) = true ∧
    transform_text udModel (("\t// ℓ is a ratio").toList) =
      .ok (("\t// l is a ratio").toList) ∧
    ("\t// l is a ratio").toList ≠ ("\t// ℓ is a ratio").toList := by
  exact ⟨by decide, by rfl, by decide⟩

/-- C3(amended): a line that, with all space (U+0020) characters removed,
begins with `//` is returned unchanged by the transliteration, whatever
other characters it contains. -/
theorem c3_amended_comment (ud : UnicodeData) (text : List Char)
    (h : (("//").toList).isPrefixOf (text.filter fun c => c != ' ') = true) :
    transform_text ud text = .ok text := by
  unfold transform_text
  rw [if_pos h]

/-- Witness for the amended C3 on a space-indented comment line containing
unmapped Unicode. -/
theorem c3_amended_witness :
    (("//").toList).isPrefixOf
      ((("  // ℓ is a ratio").toList).filter fun c => c != ' ') = true ∧
    transform_text udModel (("  // ℓ is a ratio").toList) =
      .ok (("  // ℓ is a ratio").toList) :=
  ⟨by decide, c3_amended_comment udModel (("  // ℓ is a ratio").toList) (by decide)⟩

/-- C4: when the first failing line of a file fails with a
`char_replacement` error, processing the file fails with an error carrying
the 1-based number of that line, its exact original text, and the
offending character's code point. -/
theorem c4_first_failure_report (ud : UnicodeData) (pre : List (List Char))
    (bad : List Char) (rest : List (List Char)) (ce : CharError)
    (hpre : ∀ l ∈ pre, ∃ o, transform_text ud l = .ok o)
    (hbad : transform_text ud bad = .error ce) :
    ∃ e : TransformError, process_file ud (pre ++ bad :: rest) = .error e ∧
      e.line_no = pre.length + 1 ∧ e.line_text = bad ∧ e.codePoint = ce.ch.toNat := by
  refine ⟨⟨1 + pre.length, bad, ce⟩, ?_, by show 1 + pre.length = pre.length + 1; omega,
    rfl, rfl⟩
  exact processLines_first_error ud bad rest ce hbad pre 1 hpre

/-- Witness for C4: a two-line file whose second line contains the
unassigned code point U+0378 fails with line number 2, that line's text,
and code point 888 = 0x378. -/
theorem c4_witness :
    transform_text udModel (("y = ͸").toList) = .error ⟨'͸'⟩ ∧
    ∃ e : TransformError,
      process_file udModel [("x = 1").toList, ("y = ͸").toList] = .error e ∧
      e.line_no = 2 ∧ e.line_text = ("y = ͸").toList ∧ e.codePoint = 888 := by
  refine ⟨rfl, ?_⟩
  have h := c4_first_failure_report udModel [("x = 1").toList] (("y = ͸").toList) [] ⟨'͸'⟩
    (by
      intro l hl
      rw [List.mem_singleton] at hl
      subst hl
      exact ⟨("x = 1").toList, rfl⟩)
    rfl
  exact h

/-- C5: a character in neither table whose Unicode name contains both
"greek" and "letter" (after lowercasing) transliterates to the final
alphabetic token of the lowercased name. -/
theorem c5_greek_letter_name (ud : UnicodeData) (ch : Char) (raw t : List Char)
    (h1 : charMapLookup ch = none)
    (h2 : assocLookup ch SUBSCRIPT_MAP = none)
    (h3 : ud.charName ch = some raw)
    (h4 : containsSub (("greek").toList) (raw.map Char.toLower) = true)
    (h5 : containsSub (("letter").toList) (raw.map Char.toLower) = true)
    (h6 : lastAlphaToken (pySplitTokens (raw.map Char.toLower)) = some t) :
    char_replacement ud ch = .ok t := by
  unfold char_replacement
  simp only [h1, h2, h3, h4, h5, Bool.and_self, if_true, h6]

/-- Witness for C5 at ω (GREEK SMALL LETTER OMEGA, in neither table),
which transliterates to `omega`. -/
theorem c5_witness :
    charMapLookup 'ω' = none ∧ assocLookup 'ω' SUBSCRIPT_MAP = none ∧
    udModel.charName 'ω' = some (("GREEK SMALL LETTER OMEGA").toList) ∧
    char_replacement udModel 'ω' = .ok (("omega").toList) :=
  ⟨rfl, rfl, rfl,
    c5_greek_letter_name udModel 'ω' (("GREEK SMALL LETTER OMEGA").toList)
      (("omega").toList) rfl rfl rfl (by decide) (by decide) (by decide)⟩

/-- C6 counterexample: `ⁱ` (U+2071) is a superscript character that is not
a SUBSCRIPT_MAP key; the line `xⁱ` is not rewritten to the bare base `x` —
the run is not matched at all and the residual sweep spells the character
out from its Unicode name. -/
theorem c6_counterexample :
    assocLookup 'ⁱ' SUBSCRIPT_MAP = none ∧
    transform_text udModel (("xⁱ").toList) =
      .ok (("xsuperscriptlatinsmallletteri").toList) ∧
    ("xsuperscriptlatinsmallletteri").toList ≠ ['x'] := by
  exact ⟨rfl, rfl, by decide⟩

/-- C6(amended): the subscript pattern only matches runs of SUBSCRIPT_MAP
keys, every such run maps to a non-empty suffix, and therefore
`map_subscript_sequence` never emits the base alone on a real match — its
empty-suffix fallback is unreachable. -/
theorem c6_amended_no_silent_drop (base : Char) (seq : List Char)
    (hne : seq ≠ []) (hall : ∀ c ∈ seq, isSubChar c = true) :
    map_subscript_sequence base seq =
      base :: '_' :: (seq.map fun ch => (assocLookup ch SUBSCRIPT_MAP).getD []).flatten ∧
    map_subscript_sequence base seq ≠ [base] := by
  have hmap := run_mapped_ne_nil seq hne hall
  constructor
  · simp only [map_subscript_sequence]
    rw [if_neg hmap]
  · simp only [map_subscript_sequence]
    rw [if_neg hmap]
    intro hcontra
    have hlen := congrArg List.length hcontra
    simp at hlen

/-- Witness for the amended C6 at base `x` and run `ₘ`. -/
theorem c6_witness :
    ((['ₘ'] : List Char) ≠ []) ∧ (∀ c ∈ (['ₘ'] : List Char), isSubChar c = true) ∧
    (map_subscript_sequence 'x' ['ₘ'] =
      'x' :: '_' :: ((['ₘ'] : List Char).map
        fun ch => (assocLookup ch SUBSCRIPT_MAP).getD []).flatten ∧
      map_subscript_sequence 'x' ['ₘ'] ≠ ['x']) :=
  ⟨by decide, by decide, c6_amended_no_silent_drop 'x' ['ₘ'] (by decide) (by decide)⟩

/-- C7 counterexample: the SUBSCRIPT_MAP value for `ₔ` is the non-ASCII
schwa `ə` (U+0259), and the value for `₍` is a parenthesis, neither a
digit nor a letter. -/
theorem c7_counterexample :
    assocLookup 'ₔ' SUBSCRIPT_MAP = some ['ə'] ∧ isAsciiChar 'ə' = false ∧
    assocLookup '₍' SUBSCRIPT_MAP = some ['('] ∧ ('('.isAlpha || '('.isDigit) = false := by
  exact ⟨rfl, rfl, rfl, rfl⟩

/-- C7(amended): every SUBSCRIPT_MAP value is a single character; except
for the value of `ₔ`, which is the non-ASCII `ə`, every value is an ASCII
digit, letter, or parenthesis. -/
theorem c7_amended_values : ∀ kv ∈ SUBSCRIPT_MAP,
    kv.2.length = 1 ∧
    (kv.2 = ['ə'] ∨ ∀ c ∈ kv.2, isAsciiChar c = true ∧
      (c.isAlpha || c.isDigit || decide (c = '(') || decide (c = ')')) = true) := by
  decide

/-- Witness for the amended C7 at the entry for `ₘ`. -/
theorem c7_witness :
    ('ₘ', ['m']) ∈ SUBSCRIPT_MAP ∧
    ((['m'] : List Char).length = 1 ∧
    ((['m'] : List Char) = ['ə'] ∨ ∀ c ∈ (['m'] : List Char), isAsciiChar c = true ∧
      (c.isAlpha || c.isDigit || decide (c = '(') || decide (c = ')')) = true)) :=
  ⟨by decide, c7_amended_values ('ₘ', ['m']) (by decide)⟩

/-- C8 counterexample: CHAR_MAP maps the soft hyphen U+00AD to the empty
string, and has the two-code-point key `b` + U+0304 COMBINING MACRON. -/
theorem c8_counterexample :
    (['­'], ([] : List Char)) ∈ CHAR_MAP ∧
    (['b', '̄'], ("hatb").toList) ∈ CHAR_MAP ∧ (['b', '̄'] : List Char).length = 2 := by
  exact ⟨by decide, by decide, rfl⟩

/-- C8(amended): every CHAR_MAP key is a single character except the
two-code-point key `b` + COMBINING MACRON; every value is a possibly-empty
ASCII string, and the only empty value belongs to the soft hyphen. -/
theorem c8_amended_entries : ∀ kv ∈ CHAR_MAP,
    (kv.1.length = 1 ∨ kv.1 = ['b', '̄']) ∧
    (∀ c ∈ kv.2, isAsciiChar c = true) ∧ (kv.2 = [] → kv.1 = ['­']) := by
  decide

/-- Witness for the amended C8 at the entry for θ. -/
theorem c8_witness :
    (['θ'], ("theta").toList) ∈ CHAR_MAP ∧
    (((['θ'] : List Char).length = 1 ∨ (['θ'] : List Char) = ['b', '̄']) ∧
    (∀ c ∈ ("theta").toList, isAsciiChar c = true) ∧
    (("theta").toList = [] → (['θ'] : List Char) = ['­'])) :=
  ⟨by decide, c8_amended_entries (['θ'], ("theta").toList) (by decide)⟩

/-- C9: a line of ASCII characters only is returned unchanged, so the
engine is a no-op (hence idempotent) on pure-ASCII output. -/
theorem c9_ascii_identity (ud : UnicodeData) (text : List Char)
    (h : ∀ c ∈ text, isAsciiChar c = true) :
    transform_text ud text = .ok text := by
  unfold transform_text
  by_cases hc : (("//").toList).isPrefixOf (text.filter fun c => c != ' ') = true
  · rw [if_pos hc]
  · rw [if_neg hc]
    rw [foldl_replace_noop CHAR_MAP charMap_keys_have_nonAscii text h]
    rw [subSeqPass_ascii text h]
    exact residualSweep_ascii ud text h

/-- Witness for C9 on an ASCII line. -/
theorem c9_witness :
    (∀ c ∈ ("x = a + b").toList, isAsciiChar c = true) ∧
    transform_text udModel (("x = a + b").toList) = .ok (("x = a + b").toList) :=
  ⟨by decide, c9_ascii_identity udModel (("x = a + b").toList) (by decide)⟩

/-- C10: a non-comment line whose every non-ASCII character is by itself a
key of CHAR_MAP is transliterated successfully (the unmappable-character
failure is unreachable) and its result is pure ASCII. -/
theorem c10_special_lines_safe (ud : UnicodeData) (text : List Char)
    (hnc : (("//").toList).isPrefixOf (text.filter fun c => c != ' ') = false)
    (h : ∀ c ∈ text, isAsciiChar c = true ∨ isSpecialKey c = true) :
    ∃ out, transform_text ud text = .ok out ∧ ∀ c ∈ out, isAsciiChar c = true := by
  have hexists : ∀ c ∈ text, isAsciiChar c = true ∨ ∃ v, ([c], v) ∈ CHAR_MAP := by
    intro c hc
    rcases h c hc with ha | hk
    · exact Or.inl ha
    · right
      obtain ⟨v, hv⟩ := Option.isSome_iff_exists.mp hk
      exact ⟨v, assocLookup_mem hv⟩
  have hout : ∀ c ∈ CHAR_MAP.foldl (fun acc kv => replaceList kv.1 kv.2 acc) text,
      isAsciiChar c = true :=
    foldl_replace_ascii CHAR_MAP charMap_values_ascii text hexists
  set t1 := CHAR_MAP.foldl (fun acc kv => replaceList kv.1 kv.2 acc) text with ht1
  refine ⟨t1, ?_, hout⟩
  unfold transform_text
  rw [← ht1]
  rw [if_neg (by rw [hnc]; exact Bool.false_ne_true)]
  rw [subSeqPass_ascii t1 hout]
  exact residualSweep_ascii ud t1 hout

/-- Witness for C10 on the line `θ·β`, whose non-ASCII characters are all
CHAR_MAP keys. -/
theorem c10_witness :
    ((("//").toList).isPrefixOf ((("θ·β").toList).filter fun c => c != ' ') = false) ∧
    (∀ c ∈ ("θ·β").toList, isAsciiChar c = true ∨ isSpecialKey c = true) ∧
    ∃ out, transform_text udModel (("θ·β").toList) = .ok out ∧
      ∀ c ∈ out, isAsciiChar c = true :=
  ⟨by decide, by decide,
    c10_special_lines_safe udModel (("θ·β").toList) (by decide) (by decide)⟩

end UnicodeMapper
